import Mathlib

/-!
Verification of the ndb package (Plan 9 style network database parser and
lookup engine) against its natural-language specification.

The Go source (ndb.go) is shallowly embedded below:
  - `Tuple`, `Record`, `RecordSet`, `Ndb` mirror the Go data model;
  - `scanWord` / `tokenize` embed the `scanStrings` bufio split function;
  - `parsetuples` embeds `parsetuples` (token splitting on the first `=`,
    TrimLeft/TrimRight of `"` on the value side);
  - `goLines` embeds bufio.ScanLines (split on newline, drop one trailing CR);
  - `parserecLoop` / `parserec` embed `parserec`, including the fact that the
    source tests the outer `err` variable rather than the fresh `terr`, so a
    tuple-parse failure is never propagated;
  - the file system is modelled as a partial map from file names to
    (contents, mtime); `openone`, `OpenGo` (with its pointer surgery on a heap
    of nodes), `ReopenGo` and `NdbSearch` embed `openone`, `Open`, `Reopen`
    and `Ndb.Search`.
-/

/-- One attribute=value pair, as in the Go `Tuple` struct. -/
structure Tuple where
  Attr : String
  Val : String
deriving DecidableEq, Repr, Inhabited

/-- A record: ordered tuples, possibly spanning continuation lines. -/
abbrev Record := List Tuple

/-- Ordered records parsed from one file. -/
abbrev RecordSet := List Record

/-- Errors produced by the embedded code, mirroring the Go error values:
`invalidTuple` is fmt.Errorf("invalid tuple %q", tok) from parsetuples,
`fileNotFound` is the os.Open failure, and `openWrap` is the
fmt.Errorf("open: %s", err) wrapping done by openone. -/
inductive NdbErr where
  | invalidTuple (tok : String)
  | fileNotFound (fname : String)
  | openWrap (e : NdbErr)
deriving DecidableEq, Repr

/-- Go's unicode.IsSpace: the Latin-1 cases plus the finitely many
code points with the Unicode White_Space property. -/
def goIsSpace (c : Char) : Bool :=
  c = '\t' || c = '\n' || c.toNat = 11 || c.toNat = 12 || c = '\r' || c = ' ' ||
  c.toNat = 0x85 || c.toNat = 0xA0 || c.toNat = 0x1680 ||
  (0x2000 ≤ c.toNat && c.toNat ≤ 0x200A) ||
  c.toNat = 0x2028 || c.toNat = 0x2029 || c.toNat = 0x202F ||
  c.toNat = 0x205F || c.toNat = 0x3000

/-- Leading-whitespace skipping done at the top of `scanStrings`. -/
def skipSpaces : List Char → List Char
  | [] => []
  | c :: cs => if goIsSpace c then skipSpaces cs else c :: cs

/-- The word scan of `scanStrings`: collect characters until an unquoted
space; a quote character toggles the in-quote state and stays in the token
(Go only advances past it); the delimiting space is consumed but excluded.
Returns (token, remaining input). -/
def scanWord : Bool → List Char → List Char × List Char
  | _, [] => ([], [])
  | inquote, c :: cs =>
    if c = '"' then
      let r := scanWord (!inquote) cs
      (c :: r.1, r.2)
    else if goIsSpace c && !inquote then
      ([], cs)
    else
      let r := scanWord inquote cs
      (c :: r.1, r.2)

/-- Fuel-driven tokenizer loop: bufio.Scanner repeatedly applying
`scanStrings`.  Trailing whitespace yields no further token. -/
def tokenizeFuel : Nat → List Char → List (List Char)
  | 0, _ => []
  | fuel + 1, cs =>
    match skipSpaces cs with
    | [] => []
    | c :: cs' =>
      let r := scanWord false (c :: cs')
      r.1 :: tokenizeFuel fuel r.2

/-- Tokenize one line; `cs.length + 1` fuel always suffices because every
round consumes at least the first non-space character. -/
def tokenize (cs : List Char) : List (List Char) :=
  tokenizeFuel (cs.length + 1) cs

/-- strings.SplitN(tok, "=", 2): split at the first `=`; `none` when the
token has no `=` at all. -/
def splitEq : List Char → Option (List Char × List Char)
  | [] => none
  | c :: cs =>
    if c = '=' then some ([], cs)
    else
      match splitEq cs with
      | none => none
      | some (a, v) => some (c :: a, v)

/-- strings.TrimLeft(s, "\""): drop every leading quote character. -/
def trimQuotesL : List Char → List Char
  | [] => []
  | c :: cs => if c = '"' then trimQuotesL cs else c :: cs

/-- strings.TrimRight(s, "\""): drop every trailing quote character. -/
def trimQuotesR (l : List Char) : List Char :=
  (trimQuotesL l.reverse).reverse

/-- The token loop of `parsetuples`: each token must contain `=`; the value
side is quote-trimmed on the left then on the right. -/
def parsetuplesGo : List (List Char) → List Tuple → Except NdbErr (List Tuple)
  | [], acc => .ok acc
  | t :: ts, acc =>
    match splitEq t with
    | none => .error (.invalidTuple (String.mk t))
    | some (a, v) =>
      parsetuplesGo ts (acc ++ [⟨String.mk a, String.mk (trimQuotesR (trimQuotesL v))⟩])

/-- Go `parsetuples`: a line whose first byte is `#` yields no tuples (the
only comment form the code recognises); otherwise tokenize and split each
token.  The Go code indexes line[0], so callers never pass an empty line. -/
def parsetuples (line : String) : Except NdbErr (List Tuple) :=
  if line.data.head? = some '#' then .ok []
  else parsetuplesGo (tokenize line.data) []

/-- bufio ScanLines drops one trailing carriage return from each line. -/
def dropCR (l : List Char) : List Char :=
  match l.getLast? with
  | some '\r' => l.dropLast
  | _ => l

/-- Split on newline characters; n newlines give n+1 parts. -/
def splitNl : List Char → List (List Char)
  | [] => [[]]
  | c :: cs =>
    if c = '\n' then [] :: splitNl cs
    else
      match splitNl cs with
      | [] => [[c]]
      | p :: ps => (c :: p) :: ps

/-- The sequence of lines a bufio.Scanner with ScanLines yields: newline
separated, a final unterminated line kept, the empty part after a trailing
newline dropped, one trailing CR removed per line. -/
def goLines (data : List Char) : List (List Char) :=
  let ps := splitNl data
  let ps := if ps.getLast? = some [] then ps.dropLast else ps
  ps.map dropCR

/-- The scan loop of Go `parserec`.  State: the accumulated `records`, the
record in progress `rec`, and the function-level `err` variable.  Empty
lines and `#` lines are skipped; a line whose first rune is not whitespace
flushes the record in progress and starts a new one.  The source then runs
`if tuples, terr := parsetuples(line); err != nil { err = terr; break }`:
the condition reads the OUTER err (not terr), so the break branch only
fires when err was already set — which never happens since this is the only
assignment to it — and on a tuple-parse failure the nil tuple slice is
appended, i.e. the line's tuples are silently dropped. -/
def parserecLoop : List (List Char) → RecordSet → Record → Option NdbErr →
    RecordSet × Record × Option NdbErr
  | [], records, rec, err => (records, rec, err)
  | line :: rest, records, rec, err =>
    if line = [] then parserecLoop rest records rec err
    else if line.headD ' ' = '#' then parserecLoop rest records rec err
    else
      let st :=
        if goIsSpace (line.headD ' ') then (records, rec)
        else (records ++ [rec], ([] : Record))
      let pres := parsetuples (String.mk line)
      if err.isSome then
        (st.1, st.2, match pres with | .ok _ => none | .error e => some e)
      else
        parserecLoop rest st.1
          (st.2 ++ (match pres with | .ok ts => ts | .error _ => [])) err

/-- Go `parserec`: records starts as make(RecordSet, 1) — a slice already
holding one empty record — and after the loop the record in progress is
appended unconditionally. -/
def parserec (data : String) : RecordSet × Option NdbErr :=
  let r := parserecLoop (goLines data.data) [[]] [] none
  (r.1 ++ [r.2.1], r.2.2)

/-- The file system: a map from file name to (contents, mtime). -/
abbrev Fs := String → Option (String × Nat)

/-- One opened database file, as in the Go `Ndb` struct; the `next` link of
a chain is represented by list position where a chain is needed. -/
structure Ndb where
  filename : String
  data : String
  mtime : Nat
  records : RecordSet
deriving DecidableEq, Repr, Inhabited

/-- Go `openone`: stat and read the file, parse its records; every failure
is wrapped as fmt.Errorf("open: %s", err) and no handle is produced. -/
def openone (fs : Fs) (fname : String) : Except NdbErr Ndb :=
  match fs fname with
  | none => .error (.openWrap (.fileNotFound fname))
  | some (data, mtime) =>
    match parserec data with
    | (_, some e) => .error (.openWrap e)
    | (records, none) => .ok ⟨fname, data, mtime, records⟩

/-- The tuple loop body of Go `Ndb.Search`: a tuple matches when val is
empty and the attribute agrees, or both attribute and value agree; each
match appends the whole record. -/
def searchRec (attr val : String) (rec : Record) (results : RecordSet) : RecordSet :=
  rec.foldl
    (fun results t =>
      if val = "" ∧ t.Attr = attr then results ++ [rec]
      else if t.Attr = attr ∧ t.Val = val then results ++ [rec]
      else results)
    results

/-- The record loop of Go `Ndb.Search` over one file's records. -/
def searchDb (attr val : String) (db : Ndb) (results : RecordSet) : RecordSet :=
  db.records.foldl (fun results rec => searchRec attr val rec results) results

/-- Go `Ndb.Search` over a chain of handles (the next-linked list of the
source, head first). -/
def NdbSearch (chain : List Ndb) (attr val : String) : RecordSet :=
  chain.foldl (fun results db => searchDb attr val db results) []

/-- A tuple satisfying the Go Search match condition. -/
def tupleMatches (attr val : String) (t : Tuple) : Bool :=
  decide ((val = "" ∧ t.Attr = attr) ∨ (t.Attr = attr ∧ t.Val = val))

/-- Go `Ndb.Reopen`: walk the chain; for each handle re-run openone on its
filename and on success overwrite data, mtime and records in place; on the
first failure return the error, leaving that handle and all later ones
untouched — handles already visited keep their new state. -/
def ReopenGo (fs : Fs) : List Ndb → List Ndb × Option NdbErr
  | [] => ([], none)
  | db :: rest =>
    match openone fs db.filename with
    | .error e => (db :: rest, some e)
    | .ok nd =>
      ({ db with data := nd.data, mtime := nd.mtime, records := nd.records } ::
        (ReopenGo fs rest).1, (ReopenGo fs rest).2)

/-- The per-handle effect of a successful reopen; the identity when openone
fails on the handle's file. -/
def reopenUpd (fs : Fs) (db : Ndb) : Ndb :=
  match openone fs db.filename with
  | .error _ => db
  | .ok nd => { db with data := nd.data, mtime := nd.mtime, records := nd.records }

/-- A chain node for the pointer surgery of Go `Open`: an `Ndb` plus the
explicit `next` pointer, addresses being positions in a heap list. -/
structure Node where
  filename : String
  data : String
  mtime : Nat
  records : RecordSet
  next : Option Nat
deriving DecidableEq, Repr, Inhabited

/-- Dereference a heap address (out-of-range reads give the default node;
the embedded code never dereferences a dangling address). -/
def getNode (heap : List Node) (i : Nat) : Node :=
  heap.getD i default

/-- Assign the `next` field of the node at address `i`. -/
def setNext (heap : List Node) (i : Nat) (nx : Option Nat) : List Node :=
  heap.set i { getNode heap i with next := nx }

/-- Wrap a freshly opened handle as a heap node. -/
def nodeOf (db : Ndb) (nx : Option Nat) : Node :=
  ⟨db.filename, db.data, db.mtime, db.records, nx⟩

/-- Default NDB file, Go constant NdbLocal. -/
def NdbLocal : String := "/lib/ndb/local"

/-- One iteration of the `file=` loop in Go `Open`, on state
(heap, first, last).  A tuple naming the opened file is skipped while the
head has no successor; once the head has a successor and still carries the
opened name, the head is unlinked from the front and appended after `last`
(db = first; first = first.next; last.next = db; last = db) — its own stale
next pointer is NOT cleared, exactly as in the source.  Any other `file=`
value is opened and appended at the tail. -/
def chainStep (fs : Fs) (fname : String) (st : List Node × Nat × Nat) (t : Tuple) :
    Except NdbErr (List Node × Nat × Nat) :=
  let heap := st.1
  let first := st.2.1
  let last := st.2.2
  if t.Attr = "file" then
    if t.Val = fname then
      match (getNode heap first).next with
      | none => .ok (heap, first, last)
      | some fnext =>
        if (getNode heap first).filename = fname then
          .ok (setNext heap last (some first), fnext, first)
        else .ok (heap, first, last)
    else
      match openone fs t.Val with
      | .error e => .error e
      | .ok nd =>
        let idx := heap.length
        .ok (setNext (heap ++ [nodeOf nd none]) last (some idx), first, idx)
  else .ok (heap, first, last)

/-- The full `file=` loop of Go `Open` over the tuples of the first
`database` record. -/
def chainLoop (fs : Fs) (fname : String) :
    List Tuple → List Node × Nat × Nat → Except NdbErr (List Node × Nat × Nat)
  | [], st => .ok st
  | t :: ts, st =>
    match chainStep fs fname st t with
    | .error e => .error e
    | .ok st' => chainLoop fs fname ts st'

/-- Go `Open`: substitute NdbLocal for an empty path, open the head file,
look for a record holding the attribute `database` (value ignored), and if
present follow its `file=` tuples; any failure aborts the whole open.
Returns the heap together with the address of the first chain handle. -/
def OpenGo (fs : Fs) (fname0 : String) : Except NdbErr (List Node × Nat) :=
  let fname := if fname0 = "" then NdbLocal else fname0
  match openone fs fname with
  | .error e => .error e
  | .ok db =>
    match NdbSearch [db] "database" "" with
    | [] => .ok ([nodeOf db none], 0)
    | rec0 :: _ =>
      match chainLoop fs fname rec0 ([nodeOf db none], 0, 0) with
      | .error e => .error e
      | .ok st => .ok (st.1, st.2.1)

/-- The addresses reached by following `next` pointers from `i`, with fuel
bounding the walk (the Go chain can be made cyclic by Open). -/
def chainIdxs (heap : List Node) : Nat → Nat → List Nat
  | 0, _ => []
  | fuel + 1, i =>
    i :: (match (getNode heap i).next with
          | none => []
          | some j => chainIdxs heap fuel j)

/-- No tuple of the list is a `file=` back-reference to the opened path. -/
def noSelfRef (fname : String) : List Tuple → Bool
  | [] => true
  | t :: ts => !(decide (t.Attr = "file" ∧ t.Val = fname)) && noSelfRef fname ts

/-- Every `file=` self-reference precedes every other `file=` tuple: after
the first `file=` tuple naming a different path, no self-reference occurs. -/
def selfRefsOk (fname : String) : List Tuple → Bool
  | [] => true
  | t :: ts =>
    if t.Attr = "file" ∧ t.Val ≠ fname then noSelfRef fname ts
    else selfRefsOk fname ts

/-- `selfRefsOk` applied to the first `database` record, if any. -/
def selfRefsOkHead (fname : String) (rs : RecordSet) : Bool :=
  match rs with
  | [] => true
  | rec0 :: _ => selfRefsOk fname rec0

/-- The heap's next pointers form the path 0 → 1 → ⋯ → length-1 → ∅. -/
def pathHeap (heap : List Node) : Prop :=
  ∀ i, i < heap.length →
    (getNode heap i).next = if i + 1 < heap.length then some (i + 1) else none

/-- A line that begins a new record in `parserec`: non-empty, not a `#`
comment, first rune not whitespace. -/
def isRecStart (line : List Char) : Bool :=
  !line.isEmpty && !(decide (line.headD ' ' = '#')) && !goIsSpace (line.headD ' ')

/-! ### Concrete fixtures used by counterexamples and witnesses -/

/-- A file system holding one file `f` whose single line has a token with
no `=`. -/
def fs1 : Fs := fun f => if f = "f" then some ("noequals\n", 7) else none

/-- A file system where the head file's `database` record lists another
file before a back-reference to the head, and a further file after it. -/
def fs4 : Fs := fun f =>
  if f = "a" then some ("database= file=b file=a file=c\n", 1)
  else if f = "b" then some ("b=1\n", 2)
  else if f = "c" then some ("", 3) else none

/-- A file system where the head file's `database` record lists the
back-reference to the head before the only other file. -/
def fs4w : Fs := fun f =>
  if f = "a" then some ("database= file=a file=b\n", 3)
  else if f = "b" then some ("x=1\n", 4) else none

/-- The handle openone yields for file `a` of `fs4w`. -/
def db4w : Ndb :=
  ⟨"a", "database= file=a file=b\n", 3,
    [[], [], [⟨"database", ""⟩, ⟨"file", "a"⟩, ⟨"file", "b"⟩]]⟩

/-- The heap OpenGo builds over `fs4w`. -/
def heap4w : List Node :=
  [⟨"a", "database= file=a file=b\n", 3,
     [[], [], [⟨"database", ""⟩, ⟨"file", "a"⟩, ⟨"file", "b"⟩]], some 1⟩,
   ⟨"b", "x=1\n", 4, [[], [], [⟨"x", "1"⟩]], none⟩]

/-- A record with two tuples carrying the same attribute. -/
def recAA : Record := [⟨"a", "1"⟩, ⟨"a", "2"⟩]

/-- A single-handle chain whose only real record is `recAA`. -/
def chain5 : List Ndb := [⟨"f", "x", 0, [recAA]⟩]

/-- A file system where file `a` exists with fresh content but file `b`
has been deleted. -/
def fs3 : Fs := fun f => if f = "a" then some ("x=1\n", 5) else none

/-- A two-handle chain (files `a` then `b`) with stale loaded state. -/
def chain3 : List Ndb := [⟨"a", "old", 0, [[], []]⟩, ⟨"b", "old", 0, [[], []]⟩]

/-! ### Claim theorems: concrete evaluations -/

/-- Claim C1 (code bug witness): the file `f` of `fs1` consists of the
single malformed token `noequals`, yet `openone` SUCCEEDS and produces a
handle whose records contain no tuple at all: `parserec` tests the stale
outer `err` instead of the fresh `terr` (ndb.go line 229), so the
InvalidTuple error from `parsetuples` is dropped together with the line's
tuples, and no ParseError ever reaches `Open`.  The claim (parse fails
with InvalidTuple, open fails with ParseError and yields no handle)
describes the evident intent — `err = terr; break` and the final
`return records, err` are dead code under the actual condition. -/
theorem openone_ok_on_malformed_token :
    openone fs1 "f" = .ok ⟨"f", "noequals\n", 7, [[], [], []]⟩ ∧
    (parserec "noequals\n").2 = none := by
  exact ⟨rfl, rfl⟩

/-- Claim C7 (code bug witness): parsing the line `one=one # a comment`
does not yield the tuple {one, one}; the `#` is tokenized as a word of its
own, contains no `=`, and `parsetuples` fails with invalid tuple `#`.
This contradicts the function's own doc comment ("ignore comments at end
of line") and the original package test, which expects exactly one tuple
{one, one} for this line. -/
theorem parsetuples_comment_line_errors :
    parsetuples "one=one # a comment" = .error (.invalidTuple "#") := by
  exact rfl

/-- Claim C2 counterexample: the file `a=1\n` has N = 1 non-blank,
non-comment, non-continuation lines, but parsing returns 3 records, not
N + 1 = 2 — and the first TWO of them are empty (one from the
make(RecordSet, 1) initialization, one flushed when the first record-start
line is met), not exactly one. -/
theorem parserec_count_counterexample :
    (parserec "a=1\n").1 = [[], [], [⟨"a", "1"⟩]] ∧
    ¬ ((parserec "a=1\n").1.length = 1 + 1) := by
  exact ⟨rfl, by decide⟩

/-- Claim C5 counterexample: in the chain `chain5` the record `recAA`
contains two tuples with attribute `a`, and `Search "a" ""` returns that
record TWICE — the Go loop appends the record once per matching tuple and
performs no deduplication. -/
theorem search_duplicate_counterexample :
    NdbSearch chain5 "a" "" = [recAA, recAA] ∧
    ¬ (NdbSearch chain5 "a" "").Nodup := by
  exact ⟨rfl, by decide⟩

/-- Claim C8 counterexample: in the token `a=""x` the value side begins
with two quote characters; strings.TrimLeft removes BOTH of them, so the
stored value is `x`, not the `"x` the claim (strip exactly one) predicts. -/
theorem parsetuples_quote_trim_counterexample :
    parsetuples "a=\"\"x" = .ok [⟨"a", "x"⟩] ∧ "x" ≠ "\"x" := by
  exact ⟨rfl, by decide⟩

/-- Claim C9 counterexample: the token `=x` splits into an EMPTY attribute
and value `x`, and `parsetuples` happily produces the tuple {"", "x"} —
the parsed Attr is not always non-empty. -/
theorem parsetuples_empty_attr_counterexample :
    parsetuples "=x" = .ok [⟨"", "x"⟩] ∧
    (Tuple.mk "" "x").Attr = "" := by
  exact ⟨rfl, rfl⟩

/-- Claim C3 counterexample: reopening the chain `chain3` over `fs3`
(file `a` readable with fresh content, file `b` deleted) fails, yet the
first handle's data, mtime and records HAVE been replaced: Reopen updates
handles one by one while walking the chain and returns at the first
failure, so the chain is left partially updated, not fully unchanged. -/
theorem reopen_partial_counterexample :
    ReopenGo fs3 chain3 =
      ([⟨"a", "x=1\n", 5, [[], [], [⟨"x", "1"⟩]]⟩, ⟨"b", "old", 0, [[], []]⟩],
        some (.openWrap (.fileNotFound "b"))) ∧
    (ReopenGo fs3 chain3).1.headD default ≠ chain3.headD default := by
  exact ⟨rfl, by decide⟩

/-- Claim C4 counterexample: opening file `a` of `fs4`, whose `database`
record lists `file=b file=a file=c`, does NOT keep the opened file's
handle first: when the self-reference `file=a` is met after `b` was
appended, Open unlinks the head and re-appends it after the current last
handle, so the returned chain starts with the handle for `b`. -/
theorem open_selfref_moves_head :
    (match OpenGo fs4 "a" with
     | .ok (heap, first) => some (getNode heap first).filename
     | .error _ => none) = some "b" ∧ ("b" : String) ≠ "a" := by
  exact ⟨rfl, by decide⟩

lemma searchRecAux (attr val : String) (rec : Record) (ts : List Tuple) :
    ∀ (res : RecordSet),
      ts.foldl
        (fun results t =>
          if val = "" ∧ t.Attr = attr then results ++ [rec]
          else if t.Attr = attr ∧ t.Val = val then results ++ [rec]
          else results)
        res
      = res ++ (ts.filter (tupleMatches attr val)).map (fun _ => rec) := by
  induction ts with
  | nil => intro res; simp
  | cons t ts ih =>
    intro res
    by_cases h1 : val = "" ∧ t.Attr = attr
    · rw [List.foldl_cons, if_pos h1, ih (res ++ [rec])]
      have hm : tupleMatches attr val t = true := by simp [tupleMatches, h1]
      simp only [List.filter_cons, hm]
      simp
    · by_cases h2 : t.Attr = attr ∧ t.Val = val
      · rw [List.foldl_cons, if_neg h1, if_pos h2, ih (res ++ [rec])]
        have hm : tupleMatches attr val t = true := by simp [tupleMatches, h2]
        simp only [List.filter_cons, hm]
        simp
      · rw [List.foldl_cons, if_neg h1, if_neg h2, ih res]
        have hm : tupleMatches attr val t = false := by
          simp only [tupleMatches, decide_eq_false_iff_not]
          tauto
        simp only [List.filter_cons, hm]
        simp

lemma searchRec_eq (attr val : String) (rec : Record) (res : RecordSet) :
    searchRec attr val rec res =
      res ++ (rec.filter (tupleMatches attr val)).map (fun _ => rec) :=
  searchRecAux attr val rec rec res

lemma searchDbAux (attr val : String) (recs : List Record) :
    ∀ (res : RecordSet),
      recs.foldl (fun res rec => searchRec attr val rec res) res =
        res ++ recs.flatMap
          (fun rec => (rec.filter (tupleMatches attr val)).map (fun _ => rec)) := by
  induction recs with
  | nil => intro res; simp
  | cons rec recs ih =>
    intro res
    rw [List.foldl_cons, ih (searchRec attr val rec res), searchRec_eq,
      List.flatMap_cons, List.append_assoc]

lemma search_eq_flatMap (chain : List Ndb) (attr val : String) :
    NdbSearch chain attr val =
      chain.flatMap (fun db => db.records.flatMap
        (fun rec => (rec.filter (tupleMatches attr val)).map (fun _ => rec))) := by
  have aux : ∀ (cs : List Ndb) (res : RecordSet),
      cs.foldl (fun results db => searchDb attr val db results) res =
        res ++ cs.flatMap (fun db => db.records.flatMap
          (fun rec => (rec.filter (tupleMatches attr val)).map (fun _ => rec))) := by
    intro cs
    induction cs with
    | nil => intro res; simp
    | cons db cs ih =>
      intro res
      rw [List.foldl_cons, ih (searchDb attr val db res)]
      show searchDb attr val db res ++ _ = _
      rw [searchDb, searchDbAux, List.flatMap_cons, List.append_assoc]
  simpa [NdbSearch] using aux chain []

/-- Claim C5 (amended): Search appends a record once PER matching tuple, not
at most once per record: the result is the concatenation, over the chain's
handles and their records in order, of one copy of the record for each of
its tuples that matches the query. -/
theorem search_appends_per_matching_tuple (chain : List Ndb) (attr val : String) :
    NdbSearch chain attr val =
      chain.flatMap (fun db => db.records.flatMap
        (fun rec => (rec.filter (tupleMatches attr val)).map (fun _ => rec))) :=
  search_eq_flatMap chain attr val

/-- Claim C6: a record is in the Search result iff some handle of the chain
holds it and it contains a tuple whose attribute equals `attr` and, when
`val` is non-empty, whose value equals `val`; and the result is the empty
list exactly when no record matches — Search is total (a plain list-valued
function), so absence of a match is never an error.  Result multiplicity is
Claim C5's concern. -/
theorem search_membership_iff (chain : List Ndb) (attr val : String) :
    (∀ r : Record, r ∈ NdbSearch chain attr val ↔
      ∃ db ∈ chain, r ∈ db.records ∧
        ∃ t ∈ r, t.Attr = attr ∧ (val = "" ∨ t.Val = val)) ∧
    (NdbSearch chain attr val = [] ↔
      ¬ ∃ db ∈ chain, ∃ r ∈ db.records,
        ∃ t ∈ r, t.Attr = attr ∧ (val = "" ∨ t.Val = val)) := by
  have hm : ∀ r : Record, r ∈ NdbSearch chain attr val ↔
      ∃ db ∈ chain, r ∈ db.records ∧
        ∃ t ∈ r, t.Attr = attr ∧ (val = "" ∨ t.Val = val) := by
    intro r
    rw [search_eq_flatMap]
    simp only [List.mem_flatMap, List.mem_map, List.mem_filter, tupleMatches,
      decide_eq_true_eq]
    constructor
    · rintro ⟨db, hdb, rec, hrec, t, ⟨⟨htr, hmm⟩, rfl⟩⟩
      exact ⟨db, hdb, hrec, t, htr, by tauto⟩
    · rintro ⟨db, hdb, hrec, t, htr, ha, hv⟩
      exact ⟨db, hdb, r, hrec, t, ⟨⟨htr, by tauto⟩, rfl⟩⟩
  refine ⟨hm, ?_⟩
  rw [List.eq_nil_iff_forall_not_mem]
  constructor
  · rintro hnone ⟨db, hdb, r, hrec, ht⟩
    exact hnone r ((hm r).2 ⟨db, hdb, hrec, ht⟩)
  · intro hno r hr
    obtain ⟨db, hdb, hrec, ht⟩ := (hm r).1 hr
    exact hno ⟨db, hdb, r, hrec, ht⟩

/-- Claim C10: Reopen — whether it succeeds or fails — never changes a
handle's filename or the chain structure: the resulting chain has the same
file names in the same order (hence the same length and link order, the
`next` links being the list structure of the embedding); only data, mtime
and records are possibly replaced. -/
theorem reopen_preserves_filenames (fs : Fs) (l : List Ndb) :
    ((ReopenGo fs l).1).map Ndb.filename = l.map Ndb.filename ∧
    ((ReopenGo fs l).1).length = l.length := by
  induction l with
  | nil => simp [ReopenGo]
  | cons db rest ih =>
    cases hop : openone fs db.filename with
    | error e => simp [ReopenGo, hop]
    | ok nd => simp [ReopenGo, hop, ih.1, ih.2]

/-- Claim C3 (amended): when Reopen fails, the chain splits as
pre ++ failing :: post, where the failing handle and every later one keep
their previous records, mtime and contents EXACTLY as they were, while
every handle before the failure point has already been atomically updated
from its file (all three fields together, filename untouched) — the
all-or-nothing guarantee holds per handle, not for the chain as a whole. -/
theorem reopen_failure_partial (fs : Fs) (l : List Ndb) (e : NdbErr)
    (h : (ReopenGo fs l).2 = some e) :
    ∃ pre db post,
      l = pre ++ db :: post ∧
      (ReopenGo fs l).1 = pre.map (reopenUpd fs) ++ db :: post ∧
      openone fs db.filename = .error e ∧
      ∀ p ∈ pre, ∃ nd, openone fs p.filename = .ok nd := by
  induction l with
  | nil => simp [ReopenGo] at h
  | cons x rest ih =>
    cases hop : openone fs x.filename with
    | error e' =>
      have he : e' = e := by
        simpa [ReopenGo, hop] using h
      refine ⟨[], x, rest, by simp, by simp [ReopenGo, hop], ?_, by simp⟩
      rw [hop, he]
    | ok nd =>
      have h2 : (ReopenGo fs rest).2 = some e := by
        simpa [ReopenGo, hop] using h
      obtain ⟨pre, db, post, hl, hr, he, hpre⟩ := ih h2
      refine ⟨x :: pre, db, post, by simp [hl], ?_, he, ?_⟩
      · simp only [ReopenGo, hop]
        simp [hr, reopenUpd, hop]
      · intro p hp
        rcases List.mem_cons.1 hp with hpx | hpp
        · exact ⟨nd, by rw [hpx, hop]⟩
        · exact hpre p hpp

/-- Witness for the amended Claim C3 theorem: the concrete chain `chain3`
over `fs3` fails to reopen and decomposes as the theorem states. -/
theorem reopen_failure_partial_witness :
    (ReopenGo fs3 chain3).2 = some (.openWrap (.fileNotFound "b")) ∧
    (∃ pre db post,
      chain3 = pre ++ db :: post ∧
      (ReopenGo fs3 chain3).1 = pre.map (reopenUpd fs3) ++ db :: post ∧
      openone fs3 db.filename = .error (.openWrap (.fileNotFound "b")) ∧
      ∀ p ∈ pre, ∃ nd, openone fs3 p.filename = .ok nd) :=
  ⟨rfl, reopen_failure_partial fs3 chain3 _ rfl⟩

lemma parserecLoop_count (lines : List (List Char)) :
    ∀ (records : RecordSet) (rec : Record),
      ∃ ext rec',
        parserecLoop lines records rec none = (records ++ ext, rec', none) ∧
        ext.length = (lines.filter isRecStart).length := by
  induction lines with
  | nil =>
    intro records rec
    exact ⟨[], rec, by simp [parserecLoop], by simp⟩
  | cons line rest ih =>
    intro records rec
    by_cases h0 : line = []
    · obtain ⟨ext, rec', heq, hlen⟩ := ih records rec
      refine ⟨ext, rec', ?_, ?_⟩
      · rw [parserecLoop, if_pos h0]; exact heq
      · rw [List.filter_cons]
        have hf : isRecStart line = false := by simp [isRecStart, h0]
        simp [hf, hlen]
    · by_cases h1 : line.headD ' ' = '#'
      · obtain ⟨ext, rec', heq, hlen⟩ := ih records rec
        refine ⟨ext, rec', ?_, ?_⟩
        · rw [parserecLoop, if_neg h0, if_pos h1]; exact heq
        · rw [List.filter_cons]
          have hf : isRecStart line = false := by
            have h1' : line.head?.getD ' ' = '#' := by
              rw [← List.headD_eq_head?]; exact h1
            simp [isRecStart, h1']
          simp [hf, hlen]
      · by_cases h2 : goIsSpace (line.headD ' ')
        · obtain ⟨ext, rec', heq, hlen⟩ :=
            ih records (rec ++ (match parsetuples (String.mk line) with
              | .ok ts => ts | .error _ => []))
          refine ⟨ext, rec', ?_, ?_⟩
          · rw [parserecLoop, if_neg h0, if_neg h1]
            simp only [if_pos h2, Option.isSome_none, Bool.false_eq_true, if_false]
            exact heq
          · rw [List.filter_cons]
            have hf : isRecStart line = false := by
              have h2' : goIsSpace (line.head?.getD ' ') = true := by
                rw [← List.headD_eq_head?]; exact h2
              simp [isRecStart, h2']
            simp [hf, hlen]
        · obtain ⟨ext, rec', heq, hlen⟩ :=
            ih (records ++ [rec]) (([] : Record) ++ (match parsetuples (String.mk line) with
              | .ok ts => ts | .error _ => []))
          refine ⟨[rec] ++ ext, rec', ?_, ?_⟩
          · rw [parserecLoop, if_neg h0, if_neg h1]
            simp only [if_neg h2, Option.isSome_none, Bool.false_eq_true, if_false]
            rw [← List.append_assoc]
            exact heq
          · rw [List.filter_cons]
            have hf : isRecStart line = true := by
              have h1' : ¬ line.head?.getD ' ' = '#' := by
                rw [← List.headD_eq_head?]; exact h1
              have h2' : ¬ goIsSpace (line.head?.getD ' ') = true := by
                rw [← List.headD_eq_head?]; exact h2
              simp [isRecStart, h0, h1', h2']
            simp [hf, hlen, Nat.add_comm]

/-- Claim C2 (amended): for EVERY file, record assembly yields exactly
N + 2 records, where N is the number of non-blank, non-comment lines whose
first rune is not whitespace: the empty placeholder from the
make(RecordSet, 1) initialization sits at index 0 (the head? conjunct),
the record in progress is flushed at each of the N record-start lines (the
first flush holding any leading continuation lines' tuples, empty
otherwise), and the final in-progress record is appended at end of input;
the returned error is always nil. -/
theorem parserec_record_count (data : String) :
    (parserec data).1.length = ((goLines data.data).filter isRecStart).length + 2 ∧
    (parserec data).1.head? = some ([] : Record) ∧
    (parserec data).2 = none := by
  obtain ⟨ext, rec', heq, hlen⟩ := parserecLoop_count (goLines data.data) [[]] []
  rw [parserec]
  rw [heq]
  refine ⟨?_, by simp, rfl⟩
  simp only [List.length_append, List.length_cons, List.length_nil, hlen]
  omega

lemma splitEq_attr_no_eq (l : List Char) :
    ∀ (a v : List Char), splitEq l = some (a, v) → '=' ∉ a := by
  induction l with
  | nil => intro a v h; simp [splitEq] at h
  | cons c cs ih =>
    intro a v h
    by_cases hc : c = '='
    · rw [splitEq, if_pos hc] at h
      obtain ⟨rfl, rfl⟩ : ([] : List Char) = a ∧ cs = v := by
        simpa using h
      simp
    · rw [splitEq, if_neg hc] at h
      cases hs : splitEq cs with
      | none => rw [hs] at h; simp at h
      | some av =>
        rw [hs] at h
        obtain ⟨rfl, rfl⟩ : c :: av.1 = a ∧ av.2 = v := by
          cases av; simpa using h
        intro hmem
        rcases List.mem_cons.1 hmem with heqc | hin
        · exact hc heqc.symm
        · exact ih av.1 av.2 (by cases av; exact hs) hin

lemma parsetuplesGo_attr (toks : List (List Char)) :
    ∀ (acc ts : List Tuple),
      parsetuplesGo toks acc = .ok ts →
      (∀ t ∈ acc, '=' ∉ t.Attr.data) →
      ∀ t ∈ ts, '=' ∉ t.Attr.data := by
  induction toks with
  | nil =>
    intro acc ts h hacc
    have : acc = ts := by simpa [parsetuplesGo] using h
    exact this ▸ hacc
  | cons tok toks ih =>
    intro acc ts h hacc
    rw [parsetuplesGo] at h
    cases hs : splitEq tok with
    | none => rw [hs] at h; simp at h
    | some av =>
      rw [hs] at h
      refine ih _ ts h ?_
      intro t ht
      rcases List.mem_append.1 ht with hin | hnew
      · exact hacc t hin
      · have : t = ⟨String.mk av.1, String.mk (trimQuotesR (trimQuotesL av.2))⟩ := by
          cases av; simpa using hnew
        rw [this]
        exact splitEq_attr_no_eq tok av.1 av.2 (by cases av; exact hs)

lemma parsetuples_attr (line : String) (ts : List Tuple)
    (h : parsetuples line = .ok ts) : ∀ t ∈ ts, '=' ∉ t.Attr.data := by
  rw [parsetuples] at h
  by_cases hh : line.data.head? = some '#'
  · rw [if_pos hh] at h
    have : ([] : List Tuple) = ts := by simpa using h
    intro t ht; rw [← this] at ht; simp at ht
  · rw [if_neg hh] at h
    exact parsetuplesGo_attr _ [] ts h (by simp)

lemma parserecLoop_attr (lines : List (List Char)) :
    ∀ (records : RecordSet) (rec : Record) (err : Option NdbErr),
      (∀ r ∈ records, ∀ t ∈ r, '=' ∉ t.Attr.data) →
      (∀ t ∈ rec, '=' ∉ t.Attr.data) →
      (∀ r ∈ (parserecLoop lines records rec err).1, ∀ t ∈ r, '=' ∉ t.Attr.data) ∧
      (∀ t ∈ (parserecLoop lines records rec err).2.1, '=' ∉ t.Attr.data) := by
  induction lines with
  | nil =>
    intro records rec err hrs hr
    exact ⟨by simpa [parserecLoop] using hrs, by simpa [parserecLoop] using hr⟩
  | cons line rest ih =>
    intro records rec err hrs hr
    by_cases h0 : line = []
    · rw [parserecLoop, if_pos h0]; exact ih records rec err hrs hr
    · by_cases h1 : line.headD ' ' = '#'
      · rw [parserecLoop, if_neg h0, if_pos h1]; exact ih records rec err hrs hr
      · have htoks : ∀ t ∈ (match parsetuples (String.mk line) with
            | .ok ts => ts | .error _ => ([] : List Tuple)), '=' ∉ t.Attr.data := by
          cases hp : parsetuples (String.mk line) with
          | ok ts => intro t ht; exact parsetuples_attr _ ts hp t ht
          | error e => intro t ht; simp at ht
        cases err with
        | some e =>
          by_cases h2 : goIsSpace (line.headD ' ')
          · rw [parserecLoop, if_neg h0, if_neg h1]
            simp only [if_pos h2, Option.isSome_some, if_true]
            exact ⟨hrs, hr⟩
          · rw [parserecLoop, if_neg h0, if_neg h1]
            simp only [if_neg h2, Option.isSome_some, if_true]
            refine ⟨?_, by simp⟩
            intro r hrm
            rcases List.mem_append.1 hrm with hin | hnew
            · exact hrs r hin
            · have hre : r = rec := by simpa using hnew
              exact hre ▸ hr
        | none =>
          by_cases h2 : goIsSpace (line.headD ' ')
          · rw [parserecLoop, if_neg h0, if_neg h1]
            simp only [if_pos h2, Option.isSome_none, Bool.false_eq_true, if_false]
            refine ih records _ none hrs ?_
            intro t ht
            rcases List.mem_append.1 ht with hin | hnew
            · exact hr t hin
            · exact htoks t hnew
          · rw [parserecLoop, if_neg h0, if_neg h1]
            simp only [if_neg h2, Option.isSome_none, Bool.false_eq_true, if_false]
            refine ih (records ++ [rec]) _ none ?_ ?_
            · intro r hrm
              rcases List.mem_append.1 hrm with hin | hnew
              · exact hrs r hin
              · have hre : r = rec := by simpa using hnew
                exact hre ▸ hr
            · intro t ht
              simp only [List.nil_append] at ht
              exact htoks t ht

/-- Claim C9 (amended): every tuple produced by parsing has an Attr that
contains no `=` character — it is the token's prefix before the first `=` —
but Attr MAY be empty (see the counterexample for token `=x`); Val may be
empty but is always present, being a total String field. -/
theorem parsed_attr_no_equals (data : String) (r : Record) (t : Tuple)
    (hr : r ∈ (parserec data).1) (ht : t ∈ r) : '=' ∉ t.Attr.data := by
  have h := parserecLoop_attr (goLines data.data) [[]] [] none (by simp) (by simp)
  simp only [parserec] at hr
  rcases List.mem_append.1 hr with hin | hlast
  · exact h.1 r hin t ht
  · have hre : r = (parserecLoop (goLines data.data) [[]] [] none).2.1 := by
      simpa using hlast
    exact h.2 t (hre ▸ ht)

/-- Witness for the amended Claim C9 theorem at the record parsed from the
file `a=1`. -/
theorem parsed_attr_no_equals_witness :
    ([(⟨"a", "1"⟩ : Tuple)] ∈ (parserec "a=1\n").1) ∧
    ((⟨"a", "1"⟩ : Tuple) ∈ [(⟨"a", "1"⟩ : Tuple)]) ∧
    '=' ∉ ("a" : String).data :=
  ⟨by decide, by decide,
    parsed_attr_no_equals "a=1\n" [⟨"a", "1"⟩] ⟨"a", "1"⟩ (by decide) (by decide)⟩

lemma trimQuotesL_head (l : List Char) : (trimQuotesL l).head? ≠ some '"' := by
  induction l with
  | nil => simp [trimQuotesL]
  | cons c cs ih =>
    by_cases hc : c = '"'
    · rw [trimQuotesL, if_pos hc]; exact ih
    · rw [trimQuotesL, if_neg hc]
      simp [hc]

lemma trimQuotesL_suffix (l : List Char) : ∃ w, l = w ++ trimQuotesL l := by
  induction l with
  | nil => exact ⟨[], rfl⟩
  | cons c cs ih =>
    by_cases hc : c = '"'
    · obtain ⟨w, hw⟩ := ih
      exact ⟨c :: w, by rw [trimQuotesL, if_pos hc]; simpa using hw⟩
    · exact ⟨[], by rw [trimQuotesL, if_neg hc]; simp⟩

lemma trimQuotesL_getLast (l : List Char) (h : l.getLast? ≠ some '"') :
    (trimQuotesL l).getLast? ≠ some '"' := by
  obtain ⟨w, hw⟩ := trimQuotesL_suffix l
  by_cases hnil : trimQuotesL l = []
  · simp [hnil]
  · have : l.getLast? = (trimQuotesL l).getLast? := by
      conv_lhs => rw [hw]
      exact List.getLast?_append_of_ne_nil _ hnil
    rw [← this]
    exact h

lemma trimmed_no_boundary_quote (v : List Char) :
    (trimQuotesR (trimQuotesL v)).head? ≠ some '"' ∧
    (trimQuotesR (trimQuotesL v)).getLast? ≠ some '"' := by
  constructor
  · -- head of trimQuotesR x = getLast of trimQuotesL x.reverse, via reverse
    rw [trimQuotesR]
    rw [show ((trimQuotesL (trimQuotesL v).reverse).reverse).head? =
        ((trimQuotesL (trimQuotesL v).reverse).reverse).head? from rfl]
    have hx : (trimQuotesL v).head? ≠ some '"' := trimQuotesL_head v
    have hrev : ((trimQuotesL v).reverse).getLast? ≠ some '"' := by
      rw [List.getLast?_reverse]; exact hx
    have := trimQuotesL_getLast ((trimQuotesL v).reverse) hrev
    -- head? of reverse = getLast?
    rw [← List.getLast?_reverse]
    simpa using this
  · rw [trimQuotesR, List.getLast?_reverse]
    exact trimQuotesL_head _

lemma parsetuplesGo_val (toks : List (List Char)) :
    ∀ (acc ts : List Tuple),
      parsetuplesGo toks acc = .ok ts →
      (∀ t ∈ acc, t.Val.data.head? ≠ some '"' ∧ t.Val.data.getLast? ≠ some '"') →
      ∀ t ∈ ts, t.Val.data.head? ≠ some '"' ∧ t.Val.data.getLast? ≠ some '"' := by
  induction toks with
  | nil =>
    intro acc ts h hacc
    have : acc = ts := by simpa [parsetuplesGo] using h
    exact this ▸ hacc
  | cons tok toks ih =>
    intro acc ts h hacc
    rw [parsetuplesGo] at h
    cases hs : splitEq tok with
    | none => rw [hs] at h; simp at h
    | some av =>
      rw [hs] at h
      refine ih _ ts h ?_
      intro t ht
      rcases List.mem_append.1 ht with hin | hnew
      · exact hacc t hin
      · have hte : t = ⟨String.mk av.1, String.mk (trimQuotesR (trimQuotesL av.2))⟩ := by
          cases av; simpa using hnew
        rw [hte]
        exact trimmed_no_boundary_quote av.2

/-- Claim C8 (amended): the tuple parser strips ALL leading and ALL
trailing literal quote characters from the value side
(strings.TrimLeft/TrimRight with cut set `"`), so a stored Val never
begins nor ends with a quote character. -/
theorem parsetuples_val_no_boundary_quotes (line : String) (ts : List Tuple)
    (h : parsetuples line = .ok ts) (t : Tuple) (ht : t ∈ ts) :
    t.Val.data.head? ≠ some '"' ∧ t.Val.data.getLast? ≠ some '"' := by
  rw [parsetuples] at h
  by_cases hh : line.data.head? = some '#'
  · rw [if_pos hh] at h
    have : ([] : List Tuple) = ts := by simpa using h
    rw [← this] at ht; simp at ht
  · rw [if_neg hh] at h
    exact parsetuplesGo_val _ [] ts h (by simp) t ht

/-- Witness for the amended Claim C8 theorem on the line `a="v"`. -/
theorem parsetuples_val_no_boundary_quotes_witness :
    (parsetuples "a=\"v\"" = .ok [⟨"a", "v"⟩]) ∧
    (("v" : String).data.head? ≠ some '"' ∧ ("v" : String).data.getLast? ≠ some '"') :=
  ⟨rfl, parsetuples_val_no_boundary_quotes "a=\"v\"" [⟨"a", "v"⟩] rfl ⟨"a", "v"⟩
    (by decide)⟩

lemma ndbGetDSetSelf {α : Type} [Inhabited α] (l : List α) (i : Nat) (a : α)
    (h : i < l.length) : (l.set i a).getD i default = a := by
  rw [List.getD_eq_getElem?_getD]
  simp [List.getElem?_set_self, h]

lemma ndbGetDSetNe {α : Type} [Inhabited α] (l : List α) (i j : Nat) (a : α)
    (h : i ≠ j) : (l.set i a).getD j default = l.getD j default := by
  rw [List.getD_eq_getElem?_getD, List.getD_eq_getElem?_getD, List.getElem?_set_ne h]

lemma ndbGetDAppendLeft {α : Type} [Inhabited α] (l l' : List α) (i : Nat)
    (h : i < l.length) : (l ++ l').getD i default = l.getD i default := by
  rw [List.getD_eq_getElem?_getD, List.getD_eq_getElem?_getD, List.getElem?_append_left h]

lemma ndbGetDConcatSelf {α : Type} [Inhabited α] (l : List α) (x : α) :
    (l ++ [x]).getD l.length default = x := by
  rw [List.getD_eq_getElem?_getD, List.getElem?_concat_length]
  rfl

lemma length_setNext (heap : List Node) (i : Nat) (nx : Option Nat) :
    (setNext heap i nx).length = heap.length :=
  List.length_set heap i _

lemma getNode_setNext_self (heap : List Node) (i : Nat) (nx : Option Nat)
    (h : i < heap.length) :
    getNode (setNext heap i nx) i = { getNode heap i with next := nx } := by
  rw [setNext, getNode, ndbGetDSetSelf _ _ _ h]

lemma getNode_setNext_ne (heap : List Node) (i : Nat) (nx : Option Nat) (j : Nat)
    (h : i ≠ j) : getNode (setNext heap i nx) j = getNode heap j := by
  rw [setNext, getNode, ndbGetDSetNe _ _ _ _ h, getNode]

lemma getNode_setNext_filename (heap : List Node) (i : Nat) (nx : Option Nat) (j : Nat) :
    (getNode (setNext heap i nx) j).filename = (getNode heap j).filename := by
  by_cases hij : i = j
  · subst hij
    by_cases hlt : i < heap.length
    · rw [getNode_setNext_self heap i nx hlt]
    · have hno : setNext heap i nx = heap := by
        rw [setNext]
        exact List.set_eq_of_length_le (by omega)
      rw [hno]
  · rw [getNode_setNext_ne heap i nx j hij]

lemma pathHeap_extend (heap : List Node) (nd : Ndb) (hp : pathHeap heap)
    (hpos : 0 < heap.length) :
    pathHeap (setNext (heap ++ [nodeOf nd none]) (heap.length - 1) (some heap.length)) := by
  intro i hi
  have hlen : (setNext (heap ++ [nodeOf nd none]) (heap.length - 1)
      (some heap.length)).length = heap.length + 1 := by
    rw [length_setNext, List.length_append]
    simp
  rw [hlen] at hi ⊢
  by_cases hil : i = heap.length - 1
  · subst hil
    rw [getNode_setNext_self _ _ _ (by rw [List.length_append]; simp; omega)]
    have h1 : heap.length - 1 + 1 = heap.length := by omega
    rw [h1, if_pos (by omega : heap.length < heap.length + 1)]
  · rw [getNode_setNext_ne _ _ _ _ (Ne.symm hil)]
    by_cases hT : i = heap.length
    · subst hT
      rw [getNode, ndbGetDConcatSelf]
      rw [if_neg (by omega)]
      rfl
    · have hiL : i < heap.length := by omega
      rw [getNode, ndbGetDAppendLeft _ _ _ hiL, ← getNode]
      rw [hp i hiL]
      have hi1 : i + 1 < heap.length := by omega
      rw [if_pos hi1, if_pos (by omega)]

lemma chainIdxs_path (heap : List Node) (hp : pathHeap heap) :
    ∀ (fuel i : Nat), i + fuel = heap.length → chainIdxs heap fuel i = List.range' i fuel := by
  intro fuel
  induction fuel with
  | zero => intro i h; simp [chainIdxs, List.range']
  | succ fuel ih =>
    intro i h
    have hi : i < heap.length := by omega
    rw [chainIdxs, hp i hi]
    by_cases hlt : i + 1 < heap.length
    · rw [if_pos hlt]
      show i :: chainIdxs heap fuel (i + 1) = _
      rw [ih (i + 1) (by omega), List.range'_succ i fuel 1]
    · rw [if_neg hlt]
      have hf0 : fuel = 0 := by omega
      subst hf0
      show [i] = _
      simp [List.range'_succ, List.range']

lemma chainLoop_inv (fs : Fs) (fname : String) (ts : List Tuple) :
    ∀ (heap heap' : List Node) (first' last' : Nat),
      pathHeap heap →
      0 < heap.length →
      (getNode heap 0).filename = fname →
      ((heap.length = 1 ∧ selfRefsOk fname ts = true) ∨ noSelfRef fname ts = true) →
      chainLoop fs fname ts (heap, 0, heap.length - 1) = .ok (heap', first', last') →
      first' = 0 ∧ pathHeap heap' ∧ (getNode heap' 0).filename = fname ∧
        0 < heap'.length := by
  induction ts with
  | nil =>
    intro heap heap' f' l' hp hpos hfn hph h
    rw [chainLoop] at h
    obtain ⟨rfl, rfl, -⟩ : heap = heap' ∧ 0 = f' ∧ heap.length - 1 = l' := by
      simpa using h
    exact ⟨rfl, hp, hfn, hpos⟩
  | cons t ts ih =>
    intro heap heap' f' l' hp hpos hfn hph h
    rw [chainLoop] at h
    by_cases hattr : t.Attr = "file"
    · by_cases hval : t.Val = fname
      · rcases hph with ⟨hlen1, hok⟩ | hnall
        · have hnone : (getNode heap 0).next = none := by
            rw [hp 0 hpos]
            simp [hlen1]
          have hstep : chainStep fs fname (heap, 0, heap.length - 1) t =
              .ok (heap, 0, heap.length - 1) := by
            simp [chainStep, hattr, hval, hnone]
          rw [hstep] at h
          refine ih heap heap' f' l' hp hpos hfn ?_ h
          left
          refine ⟨hlen1, ?_⟩
          rw [selfRefsOk, if_neg (by simp [hval])] at hok
          exact hok
        · exfalso
          rw [noSelfRef] at hnall
          have hd : decide (t.Attr = "file" ∧ t.Val = fname) = true := by
            simp [hattr, hval]
          simp [hd] at hnall
      · cases hop : openone fs t.Val with
        | error e =>
          have hstep : chainStep fs fname (heap, 0, heap.length - 1) t = .error e := by
            simp [chainStep, hattr, hval, hop]
          rw [hstep] at h
          simp at h
        | ok nd =>
          have hstep : chainStep fs fname (heap, 0, heap.length - 1) t =
              .ok (setNext (heap ++ [nodeOf nd none]) (heap.length - 1)
                    (some heap.length), 0, heap.length) := by
            simp [chainStep, hattr, hval, hop]
          rw [hstep] at h
          set heap₂ := setNext (heap ++ [nodeOf nd none]) (heap.length - 1)
            (some heap.length) with hh₂
          have hlen₂ : heap₂.length = heap.length + 1 := by
            rw [hh₂, length_setNext, List.length_append]
            simp
          have hp₂ : pathHeap heap₂ := pathHeap_extend heap nd hp hpos
          have hfn₂ : (getNode heap₂ 0).filename = fname := by
            rw [hh₂, getNode_setNext_filename, getNode,
              ndbGetDAppendLeft _ _ _ hpos, ← getNode]
            exact hfn
          have h' : chainLoop fs fname ts (heap₂, 0, heap₂.length - 1) =
              .ok (heap', f', l') := by
            have e3 : heap.length = heap₂.length - 1 := by omega
            rw [← e3]
            exact h
          refine ih heap₂ heap' f' l' hp₂ (by omega) hfn₂ ?_ h' 
          right
          rcases hph with ⟨-, hok⟩ | hnall
          · rw [selfRefsOk, if_pos ⟨hattr, hval⟩] at hok
            exact hok
          · rw [noSelfRef, Bool.and_eq_true] at hnall
            exact hnall.2
    · have hstep : chainStep fs fname (heap, 0, heap.length - 1) t =
          .ok (heap, 0, heap.length - 1) := by
        simp [chainStep, hattr]
      rw [hstep] at h
      refine ih heap heap' f' l' hp hpos hfn ?_ h
      rcases hph with ⟨hlen1, hok⟩ | hnall
      · left
        refine ⟨hlen1, ?_⟩
        rw [selfRefsOk, if_neg (by tauto)] at hok
        exact hok
      · right
        rw [noSelfRef, Bool.and_eq_true] at hnall
        exact hnall.2

lemma openone_filename (fs : Fs) (fname : String) (db : Ndb)
    (h : openone fs fname = .ok db) : db.filename = fname := by
  rw [openone] at h
  cases hfs : fs fname with
  | none => rw [hfs] at h; simp at h
  | some dm =>
    obtain ⟨data, mtime⟩ := dm
    rw [hfs] at h
    have h' : (match parserec data with
        | (_, some e) => Except.error (NdbErr.openWrap e)
        | (records, none) =>
          Except.ok (Ndb.mk fname data mtime records)) = Except.ok db := h
    rcases hpr : parserec data with ⟨records, err⟩
    rw [hpr] at h'
    cases err with
    | some e => simp at h'
    | none =>
      have hdb : Ndb.mk fname data mtime records = db := by simpa using h'
      rw [← hdb]

/-- Claim C4 (amended): if in the `database` record every `file=` tuple
naming the opened path precedes all `file=` tuples naming other paths (in
particular when the self-reference comes first, or no other file is
listed), then the self-reference is elided as the claim states: the opened
file's handle is the first of the returned chain, and walking the `next`
pointers visits the heap addresses 0, 1, …, n−1 in order, so the head
(address 0) occurs exactly once.  When a self-reference follows another
`file=` tuple the head is instead moved towards the tail — see the
counterexample. -/
theorem open_selfref_elided (fs : Fs) (fname : String) (db : Ndb)
    (heap : List Node) (first : Nat)
    (hne : fname ≠ "")
    (hdb : openone fs fname = .ok db)
    (hcond : selfRefsOkHead fname (NdbSearch [db] "database" "") = true)
    (hok : OpenGo fs fname = .ok (heap, first)) :
    first = 0 ∧ (getNode heap 0).filename = fname ∧
    chainIdxs heap heap.length 0 = List.range heap.length := by
  rw [OpenGo] at hok
  simp only [if_neg hne] at hok
  rw [hdb] at hok
  have hok' : (match NdbSearch [db] "database" "" with
      | [] => Except.ok ([nodeOf db none], 0)
      | rec0 :: _ =>
        match chainLoop fs fname rec0 ([nodeOf db none], 0, 0) with
        | .error e => .error e
        | .ok st => Except.ok (st.1, st.2.1)) = Except.ok (heap, first) := hok
  have hdbf : db.filename = fname := openone_filename fs fname db hdb
  cases hsearch : NdbSearch [db] "database" "" with
  | nil =>
    rw [hsearch] at hok'
    obtain ⟨rfl, rfl⟩ : [nodeOf db none] = heap ∧ 0 = first := by simpa using hok'
    refine ⟨rfl, by simpa [getNode, nodeOf] using hdbf, ?_⟩
    simp [chainIdxs, getNode, nodeOf, List.range_eq_range', List.range'_succ, List.range']
  | cons rec0 rest =>
    rw [hsearch] at hok'
    have hso : selfRefsOk fname rec0 = true := by
      rw [hsearch, selfRefsOkHead] at hcond
      exact hcond
    have hok2 : (match chainLoop fs fname rec0 ([nodeOf db none], 0, 0) with
        | .error e => .error e
        | .ok st => Except.ok (st.1, st.2.1)) = Except.ok (heap, first) := hok'
    cases hcl : chainLoop fs fname rec0 ([nodeOf db none], 0, 0) with
    | error e => rw [hcl] at hok2; simp at hok2
    | ok st =>
      rw [hcl] at hok2
      obtain ⟨heap₀, first₀, last₀⟩ := st
      obtain ⟨he, hf⟩ : heap₀ = heap ∧ first₀ = first := by
        constructor <;> · simp only [Except.ok.injEq, Prod.mk.injEq] at hok2; tauto
      rw [← he, ← hf]
      have hinv := chainLoop_inv fs fname rec0 [nodeOf db none] heap₀ first₀ last₀
        (by
          intro i hi
          have hi0 : i = 0 := by
            simpa [Nat.lt_one_iff] using hi
          subst hi0
          simp [getNode, nodeOf])
        (by simp)
        (by simpa [getNode, nodeOf] using hdbf)
        (Or.inl ⟨by simp, hso⟩)
        hcl
      obtain ⟨hfirst, hpath, hfn, hpos⟩ := hinv
      refine ⟨hfirst, hfn, ?_⟩
      rw [chainIdxs_path heap₀ hpath heap₀.length 0 (by omega)]
      rw [List.range_eq_range']

/-- Witness for the amended Claim C4 theorem: opening file `a` of `fs4w`,
whose database record lists the self-reference before the other file. -/
theorem open_selfref_elided_witness :
    (openone fs4w "a" = .ok db4w) ∧
    (selfRefsOkHead "a" (NdbSearch [db4w] "database" "") = true) ∧
    (OpenGo fs4w "a" = .ok (heap4w, 0)) ∧
    (0 = 0 ∧ (getNode heap4w 0).filename = "a" ∧
      chainIdxs heap4w heap4w.length 0 = List.range heap4w.length) :=
  ⟨rfl, by decide, rfl,
    open_selfref_elided fs4w "a" db4w heap4w 0 (by decide) rfl (by decide) rfl⟩
